import Mathlib

/-!
Verification of the timeline-level and tick-label helpers of
`nintendo-gw-viz` (`src/utils.py`).

The three functions with actual logic are embedded here:

* `generate_timeline_levels` — the automatic level generator.  The Python
  function folds over the input series names, keeping a dictionary
  `series_side_dict` from series name to a side coefficient (+1 / -1,
  assigned alternately on first sight), a `positive_level` counter starting
  at 2, a `negative_level` counter starting at -2, and `next_coef`.  The
  dictionary is modelled as an association list to which fresh names are
  appended, which matches Python dict insertion order.
* `get_timeline_levels` — the manual lookup, `levels[: len(series)]` over a
  fixed 63-entry table.  Python slicing clamps, so the embedding is
  `List.take`.
* `millions_formatter` — the tick formatter.
-/

/-- The running state of `generate_timeline_levels`: the local variables
`series_side_dict`, `positive_level`, `negative_level` and `next_coef` of
the Python function. -/
structure GenState where
  series_side_dict : List (String × Int)
  positive_level : Int
  negative_level : Int
  next_coef : Int

/-- `threshold_level = 16` in `generate_timeline_levels`. -/
def threshold_level : Int := 16

/-- Initial state of `generate_timeline_levels`:
`series_side_dict = {}`, `positive_level = 2`, `negative_level = -2`,
`next_coef = 1`. -/
def initState : GenState :=
  { series_side_dict := [], positive_level := 2, negative_level := -2, next_coef := 1 }

/-- Association-list lookup, the embedding of `series_side_dict[s]` /
`s in series_side_dict`. -/
def lookupSide (s : String) : List (String × Int) → Option Int
  | [] => none
  | (k, v) :: rest => if k = s then some v else lookupSide s rest

/-- The `if s not in series_side_dict:` block of the loop body: on first
sight a series name is appended with the current `next_coef`, and
`next_coef` is negated (`next_coef *= -1`). -/
def assignSide (st : GenState) (s : String) : GenState :=
  match lookupSide s st.series_side_dict with
  | some _ => st
  | none =>
      { st with
        series_side_dict := st.series_side_dict ++ [(s, st.next_coef)],
        next_coef := st.next_coef * -1 }

/-- One iteration of the loop of `generate_timeline_levels`: assign a side
to `s` if unseen, read its coefficient `c`, then either emit
`positive_level` and bump/reset it (`c > 0`), or emit `negative_level`
and bump/reset it (`c < 0`).  As in the source, nothing is emitted when
`c` is neither positive nor negative (which never happens, see `WF`). -/
def processRecord (st0 : GenState) (s : String) : GenState × List Int :=
  let st := assignSide st0 s
  let c := (lookupSide s st.series_side_dict).getD 0
  if 0 < c then
    ({ st with
        positive_level :=
          if st.positive_level = threshold_level then 2 else st.positive_level + c },
      [st.positive_level])
  else if c < 0 then
    ({ st with
        negative_level :=
          if st.negative_level = -threshold_level then -3 else st.negative_level + c },
      [st.negative_level])
  else (st, [])

/-- The loop of `generate_timeline_levels`, returning the final state
together with the emitted levels. -/
def runAux (st : GenState) : List String → GenState × List Int
  | [] => (st, [])
  | s :: rest =>
      let p := processRecord st s
      let q := runAux p.1 rest
      (q.1, p.2 ++ q.2)

/-- `generate_timeline_levels` from `src/utils.py`: the list of levels
produced for the given sequence of series names. -/
def generate_timeline_levels (l : List String) : List Int :=
  (runAux initState l).2

/-- The state of the generator after consuming `l`. -/
def runState (l : List String) : GenState :=
  (runAux initState l).1

/-- The side coefficient a full run on `l` assigns to series `s`
(`series_side_dict[s]` at the end of `generate_timeline_levels(l)`),
defaulting to 0 for a name that never occurs. -/
def coefOf (l : List String) (s : String) : Int :=
  (lookupSide s (runState l).series_side_dict).getD 0

/-- Distinct names of `l` not in `seen`, in order of first occurrence. -/
def firstOccsAux (seen : List String) : List String → List String
  | [] => []
  | s :: rest =>
      if s ∈ seen then firstOccsAux seen rest
      else s :: firstOccsAux (seen ++ [s]) rest

/-- The distinct series names of `l`, in order of first occurrence. -/
def firstOccs (l : List String) : List String :=
  firstOccsAux [] l

/-- The fixed 63-entry table of `get_timeline_levels`. -/
def timeline_levels_table : List Int :=
  [2, 3, 4, 5, 6, -2, -3, -4, 8, 9,
   10, 11, 12, 13, 14, 15, 16, 17, -2, -3,
   2, -4, -5, -6, -7, 6, 7, 8, 3, -8,
   9, 4, 11, 12, 13, -9, 14, -10, -14, -15,
   15, -2, -3, 16, -4, -11, 5, -12, -7, -8,
   -9, -13, 13, -14, 6, 7, 8, -15, -16, 9,
   2, 2, 3]

/-- `get_timeline_levels` from `src/utils.py`: `levels[: len(series)]`.
Python slicing never raises; it clamps to the list length, so the
embedding is `List.take`. -/
def get_timeline_levels (l : List String) : List Int :=
  timeline_levels_table.take l.length

/-- Division of naturals rounded to the nearest integer with ties to even:
both the rounding CPython's `:.0f` / `:.1f` formatting performs on an
exact tie, and the mantissa rounding of IEEE-754 round-to-nearest. -/
def roundHalfEvenDiv (a b : Nat) : Nat :=
  let q := a / b
  let r := a % b
  if 2 * r < b then q
  else if b < 2 * r then q + 1
  else if q % 2 = 0 then q else q + 1

/-- Floor of log₂, by fuel recursion (fuel `n` suffices for input `n`). -/
def log2Aux : Nat → Nat → Nat
  | 0, _ => 0
  | fuel + 1, n => if n < 2 then 0 else log2Aux fuel (n / 2) + 1

def log2floor (n : Nat) : Nat := log2Aux n n

/-- The IEEE-754 binary64 value nearest to the fraction `a / b` (ties to
even), returned as an exact fraction (numerator, power-of-two
denominator).  The mantissa grid is chosen from `log2floor (a / b)`, which
is exact for `a / b ≥ 1`; for the one sub-1 window reachable inside
`millions_formatter` (`1000000 * 1e-6 = 1 - 4.53e-17`) the coarser grid
still rounds to 1.0, the correct double.  The CPython overflow range
(`value ≥ 2^1024`, where int-to-float conversion raises `OverflowError`)
is not modelled. -/
def roundFloat64Pos (a b : Nat) : Nat × Nat :=
  let e := log2floor (a / b)
  if e ≤ 52 then (roundHalfEvenDiv (a * 2 ^ (52 - e)) b, 2 ^ (52 - e))
  else (roundHalfEvenDiv a (b * 2 ^ (e - 52)) * 2 ^ (e - 52), 1)

/-- The double `float(value) * 1e-6` as an exact fraction: `value` is
rounded to binary64, multiplied by the binary64 value of `1e-6`, which is
exactly 4722366482869645 / 2⁷², and the product is rounded to binary64
again — precisely the two roundings CPython performs. -/
def timesFloat1em6 (v : Nat) : Nat × Nat :=
  let dv := roundFloat64Pos v 1
  roundFloat64Pos (dv.1 * 4722366482869645) (dv.2 * 2 ^ 72)

/-- `millions_formatter` from `src/utils.py`.  The `M` branch models
`f"{value * 1e-6:.1f}M"` exactly: the IEEE-754 double `value * 1e-6` is
computed as an exact fraction by `timesFloat1em6` and then correctly
rounded to one decimal digit, ties to even — CPython's `:.1f` behaviour
on the double's exact binary value.  The `K` branch models
`f"{value * 1e-3:.0f}K"` as exact division by 1000 rounded ties-to-even,
which agrees with the double evaluation for every integer in
`[1000, 1000000)`: each tie `k + 0.5` is exactly representable and
`float(v) * float(1e-3)` rounds back to it, so both paths round the exact
tie half-to-even.  The comparisons `value >= 1e6` / `value >= 1e3` are
exact in CPython for integers. -/
def millions_formatter (value : Int) : String :=
  if 1000000 ≤ value then
    let p := timesFloat1em6 value.toNat
    let tenths := roundHalfEvenDiv (p.1 * 10) p.2
    toString (tenths / 10) ++ "." ++ toString (tenths % 10) ++ "M"
  else if 1000 ≤ value then
    toString (roundHalfEvenDiv value.toNat 1000) ++ "K"
  else
    toString value

/-- Following the spec's words rather than the source: the `M` branch
reading "the value divided by 1e6 rendered with one decimal place" as
exact decimal arithmetic, rounding the tie cases half to even.  Stated
only to be compared with `millions_formatter`, whose `M` branch follows
the source's IEEE-754 doubles instead. -/
def exact_decimal_M_render (value : Int) : String :=
  toString (roundHalfEvenDiv value.toNat 100000 / 10) ++ "." ++
    toString (roundHalfEvenDiv value.toNat 100000 % 10) ++ "M"

/-- C1 (counterexample): the claimed output `[2, 2, 3]` for the input
`["Silver", "Gold", "Silver"]` is not what `generate_timeline_levels`
produces: "Gold" is the second distinct series, so it is assigned
coefficient -1 and emits `negative_level = -2`, not 2. -/
theorem silver_gold_silver_not_two_two_three :
    generate_timeline_levels ["Silver", "Gold", "Silver"] ≠ [2, 2, 3] := by
  decide

/-- C1 (amended): for the input sequence `["Silver", "Gold", "Silver"]`,
`generate_timeline_levels` yields exactly `[2, -2, 3]`. -/
theorem silver_gold_silver_levels :
    generate_timeline_levels ["Silver", "Gold", "Silver"] = [2, -2, 3] := by
  decide

/-- C3 (counterexample): on an input of length 64 > 63,
`get_timeline_levels` does not fail; it returns the full 63-entry table
(Python slicing `levels[: len(series)]` clamps), so the result has
length 63, not 64 and no error occurs. -/
theorem long_input_returns_full_table :
    get_timeline_levels (List.replicate 64 "A") = timeline_levels_table ∧
    (get_timeline_levels (List.replicate 64 "A")).length = 63 ∧
    (List.replicate 64 "A").length = 64 := by
  refine ⟨rfl, rfl, rfl⟩

/-- C3 (amended): for every input sequence of length N > 63,
`get_timeline_levels` raises no error and returns the entire fixed
63-element table, a list of length 63 < N. -/
theorem get_timeline_levels_clamps :
    ∀ l : List String, 63 < l.length →
      get_timeline_levels l = timeline_levels_table ∧
      (get_timeline_levels l).length = 63 := by
  intro l h
  have htab : timeline_levels_table.length = 63 := rfl
  constructor
  · exact List.take_of_length_le (by omega)
  · unfold get_timeline_levels
    rw [List.length_take]
    omega

/-- Witness for `get_timeline_levels_clamps` at a length-70 input. -/
theorem get_timeline_levels_clamps_witness :
    get_timeline_levels (List.replicate 70 "x") = timeline_levels_table ∧
    (get_timeline_levels (List.replicate 70 "x")).length = 63 :=
  get_timeline_levels_clamps (List.replicate 70 "x") (by simp)

/-- C7: for every input of length k ≤ 63, `get_timeline_levels` returns
exactly the first k entries of the fixed 63-entry table (and so has
length k); in particular a length-5 input yields `[2, 3, 4, 5, 6]`. -/
theorem get_timeline_levels_table_prefix_values :
    (∀ l : List String, l.length ≤ 63 →
       get_timeline_levels l = timeline_levels_table.take l.length ∧
       (get_timeline_levels l).length = l.length) ∧
    get_timeline_levels ["a", "b", "c", "d", "e"] = [2, 3, 4, 5, 6] := by
  constructor
  · intro l h
    have htab : timeline_levels_table.length = 63 := rfl
    refine ⟨rfl, ?_⟩
    unfold get_timeline_levels
    rw [List.length_take]
    omega
  · decide

/-- Witness for `get_timeline_levels_table_prefix_values` at a concrete
length-3 input. -/
theorem get_timeline_levels_table_prefix_values_witness :
    get_timeline_levels ["x", "y", "z"] =
      timeline_levels_table.take (["x", "y", "z"] : List String).length ∧
    (get_timeline_levels ["x", "y", "z"]).length =
      (["x", "y", "z"] : List String).length :=
  get_timeline_levels_table_prefix_values.1 ["x", "y", "z"] (by decide)

/-- C10: the output of `get_timeline_levels` depends only on the length of
its input: two inputs of equal length yield identical outputs. -/
theorem get_timeline_levels_length_only :
    ∀ l₁ l₂ : List String, l₁.length = l₂.length →
      get_timeline_levels l₁ = get_timeline_levels l₂ := by
  intro l₁ l₂ h
  unfold get_timeline_levels
  rw [h]

/-- Witness for `get_timeline_levels_length_only` on two different
length-2 inputs. -/
theorem get_timeline_levels_length_only_witness :
    get_timeline_levels ["a", "b"] = get_timeline_levels ["Gold", "Silver"] :=
  get_timeline_levels_length_only ["a", "b"] ["Gold", "Silver"] rfl

/-- C8 (counterexample): the `M` branch does not render "the value divided
by 1e6 with one decimal place" by exact decimal arithmetic.  At the tie
inputs 1050000 and 1150000 the program follows the IEEE-754 double
`value * 1e-6` (which lands strictly above 1.05, respectively strictly
below 1.15, because `float(1e-6) < 1e-6`) and prints "1.1M" both times,
while exact one-decimal rendering gives "1.0M" (ties to even) for the
first and "1.2M" for the second — no exact-decimal tie rule matches. -/
theorem millions_formatter_exact_ties_false :
    millions_formatter 1050000 = "1.1M" ∧
    exact_decimal_M_render 1050000 = "1.0M" ∧
    millions_formatter 1150000 = "1.1M" ∧
    exact_decimal_M_render 1150000 = "1.2M" ∧
    millions_formatter 1050000 ≠ exact_decimal_M_render 1050000 ∧
    millions_formatter 1150000 ≠ exact_decimal_M_render 1150000 := by
  refine ⟨by decide, by decide, by decide, by decide, by decide, by decide⟩

/-- C8 (amended): `millions_formatter` maps any value ≥ 10^6 to the
IEEE-754 double `value * 1e-6` correctly rounded to one decimal place
(ties of the double's exact binary value going to even) plus suffix `M`;
any value in [10^3, 10^6) to the value divided by 10^3 rounded to the
nearest integer (ties to even) plus suffix `K`; and any value below 10^3
to its plain numeric string; in particular 999 ↦ "999", 1000 ↦ "1K",
2500 ↦ "2K", 1500000 ↦ "1.5M". -/
theorem millions_formatter_spec :
    millions_formatter 999 = "999" ∧
    millions_formatter 1000 = "1K" ∧
    millions_formatter 2500 = "2K" ∧
    millions_formatter 1500000 = "1.5M" ∧
    (∀ v : Int, 1000000 ≤ v →
       millions_formatter v =
         toString (roundHalfEvenDiv ((timesFloat1em6 v.toNat).1 * 10)
             (timesFloat1em6 v.toNat).2 / 10) ++ "." ++
           toString (roundHalfEvenDiv ((timesFloat1em6 v.toNat).1 * 10)
             (timesFloat1em6 v.toNat).2 % 10) ++ "M") ∧
    (∀ v : Int, 1000 ≤ v → v < 1000000 →
       millions_formatter v = toString (roundHalfEvenDiv v.toNat 1000) ++ "K") ∧
    (∀ v : Int, v < 1000 → millions_formatter v = toString v) := by
  refine ⟨by decide, by decide, by decide, by decide, ?_, ?_, ?_⟩
  · intro v h
    unfold millions_formatter
    rw [if_pos h]
  · intro v h₁ h₂
    unfold millions_formatter
    rw [if_neg (by omega), if_pos h₁]
  · intro v h
    unfold millions_formatter
    rw [if_neg (by omega), if_neg (by omega)]

/-- Witness for `millions_formatter_spec`: the K branch at 350000 and the
M branch at 2500000. -/
theorem millions_formatter_spec_witness :
    millions_formatter 350000 = toString (roundHalfEvenDiv (350000 : Int).toNat 1000) ++ "K" ∧
    millions_formatter 350000 = "350K" ∧
    millions_formatter 2500000 =
      toString (roundHalfEvenDiv ((timesFloat1em6 (2500000 : Int).toNat).1 * 10)
          (timesFloat1em6 (2500000 : Int).toNat).2 / 10) ++ "." ++
        toString (roundHalfEvenDiv ((timesFloat1em6 (2500000 : Int).toNat).1 * 10)
          (timesFloat1em6 (2500000 : Int).toNat).2 % 10) ++ "M" ∧
    millions_formatter 2500000 = "2.5M" :=
  ⟨millions_formatter_spec.2.2.2.2.2.1 350000 (by decide) (by decide), by decide,
    millions_formatter_spec.2.2.2.2.1 2500000 (by decide), by decide⟩

/-- The side coefficient `c = series_side_dict[s]` read in the loop body,
right after the first-sight assignment. -/
def sideCoef (st : GenState) (s : String) : Int :=
  (lookupSide s (assignSide st s).series_side_dict).getD 0

theorem lookupSide_append_some {s : String} {d d' : List (String × Int)} {c : Int}
    (h : lookupSide s d = some c) : lookupSide s (d ++ d') = some c := by
  induction d with
  | nil => simp [lookupSide] at h
  | cons p rest ih =>
      obtain ⟨k, v⟩ := p
      by_cases hk : k = s
      · simpa [lookupSide, hk] using (by simpa [lookupSide, hk] using h)
      · simp only [lookupSide, if_neg hk] at h ⊢
        exact ih h

theorem lookupSide_append_none {s : String} {d : List (String × Int)}
    (h : lookupSide s d = none) (d' : List (String × Int)) :
    lookupSide s (d ++ d') = lookupSide s d' := by
  induction d with
  | nil => simp
  | cons p rest ih =>
      obtain ⟨k, v⟩ := p
      by_cases hk : k = s
      · simp [lookupSide, hk] at h
      · simp only [lookupSide, if_neg hk] at h ⊢
        exact ih h

theorem lookupSide_mem {s : String} {d : List (String × Int)} {c : Int}
    (h : lookupSide s d = some c) : (s, c) ∈ d := by
  induction d with
  | nil => simp [lookupSide] at h
  | cons p rest ih =>
      obtain ⟨k, v⟩ := p
      by_cases hk : k = s
      · simp only [lookupSide, if_pos hk] at h
        subst hk
        obtain rfl : v = c := by simpa using h
        exact List.mem_cons_self _ _
      · simp only [lookupSide, if_neg hk] at h
        exact List.mem_cons_of_mem _ (ih h)

theorem assignSide_of_some {st : GenState} {s : String} {c : Int}
    (h : lookupSide s st.series_side_dict = some c) : assignSide st s = st := by
  unfold assignSide
  rw [h]

theorem assignSide_of_none {st : GenState} {s : String}
    (h : lookupSide s st.series_side_dict = none) :
    assignSide st s =
      { st with
        series_side_dict := st.series_side_dict ++ [(s, st.next_coef)],
        next_coef := st.next_coef * -1 } := by
  unfold assignSide
  rw [h]

theorem assignSide_positive_level (st : GenState) (s : String) :
    (assignSide st s).positive_level = st.positive_level := by
  unfold assignSide
  cases lookupSide s st.series_side_dict <;> rfl

theorem assignSide_negative_level (st : GenState) (s : String) :
    (assignSide st s).negative_level = st.negative_level := by
  unfold assignSide
  cases lookupSide s st.series_side_dict <;> rfl

theorem sideCoef_lookup (st : GenState) (s : String) :
    lookupSide s (assignSide st s).series_side_dict = some (sideCoef st s) := by
  unfold sideCoef
  cases h : lookupSide s st.series_side_dict with
  | some c =>
      rw [assignSide_of_some h, h]
      rfl
  | none =>
      rw [assignSide_of_none h]
      have hl : lookupSide s (st.series_side_dict ++ [(s, st.next_coef)]) =
          some st.next_coef := by
        rw [lookupSide_append_none h]
        simp [lookupSide]
      rw [hl]
      rfl

/-- The body of the loop, with the `let` bindings unfolded. -/
theorem processRecord_def (st : GenState) (s : String) :
    processRecord st s =
      (if 0 < sideCoef st s then
        ({ assignSide st s with
            positive_level :=
              if (assignSide st s).positive_level = threshold_level then 2
              else (assignSide st s).positive_level + sideCoef st s },
          [(assignSide st s).positive_level])
      else if sideCoef st s < 0 then
        ({ assignSide st s with
            negative_level :=
              if (assignSide st s).negative_level = -threshold_level then -3
              else (assignSide st s).negative_level + sideCoef st s },
          [(assignSide st s).negative_level])
      else (assignSide st s, [])) := by
  unfold processRecord sideCoef
  rfl

theorem processRecord_series_side_dict (st : GenState) (s : String) :
    (processRecord st s).1.series_side_dict = (assignSide st s).series_side_dict := by
  rw [processRecord_def]
  split_ifs <;> rfl

theorem processRecord_next_coef (st : GenState) (s : String) :
    (processRecord st s).1.next_coef = (assignSide st s).next_coef := by
  rw [processRecord_def]
  split_ifs <;> rfl

theorem processRecord_pos {st : GenState} {s : String} (h : sideCoef st s = 1) :
    (processRecord st s).2 = [st.positive_level] ∧
    (processRecord st s).1.positive_level =
      (if st.positive_level = threshold_level then 2 else st.positive_level + 1) ∧
    (processRecord st s).1.negative_level = st.negative_level := by
  rw [processRecord_def, if_pos (by rw [h]; norm_num)]
  refine ⟨by rw [assignSide_positive_level], ?_, by simp [assignSide_negative_level]⟩
  simp only [assignSide_positive_level, h]

theorem processRecord_neg {st : GenState} {s : String} (h : sideCoef st s = -1) :
    (processRecord st s).2 = [st.negative_level] ∧
    (processRecord st s).1.negative_level =
      (if st.negative_level = -threshold_level then -3 else st.negative_level - 1) ∧
    (processRecord st s).1.positive_level = st.positive_level := by
  rw [processRecord_def, if_neg (by rw [h]; norm_num), if_pos (by rw [h]; norm_num)]
  refine ⟨by rw [assignSide_negative_level], ?_, by simp [assignSide_positive_level]⟩
  simp only [assignSide_negative_level, h]
  split <;> omega

/-- The invariant of the generator state: the next coefficient and all
assigned coefficients are ±1, `positive_level ∈ [2, 16]` and
`negative_level ∈ [-16, -2]`. -/
def WF (st : GenState) : Prop :=
  (st.next_coef = 1 ∨ st.next_coef = -1) ∧
  (∀ p ∈ st.series_side_dict, p.2 = 1 ∨ p.2 = -1) ∧
  2 ≤ st.positive_level ∧ st.positive_level ≤ 16 ∧
  -16 ≤ st.negative_level ∧ st.negative_level ≤ -2

theorem WF_initState : WF initState := by
  refine ⟨Or.inl rfl, ?_, ?_, ?_, ?_, ?_⟩ <;> simp [initState]

theorem sideCoef_cases {st : GenState} (hwf : WF st) (s : String) :
    sideCoef st s = 1 ∨ sideCoef st s = -1 := by
  unfold sideCoef
  cases h : lookupSide s st.series_side_dict with
  | some c =>
      rw [assignSide_of_some h, h]
      exact hwf.2.1 (s, c) (lookupSide_mem h)
  | none =>
      rw [assignSide_of_none h]
      have hl : lookupSide s (st.series_side_dict ++ [(s, st.next_coef)]) =
          some st.next_coef := by
        rw [lookupSide_append_none h]
        simp [lookupSide]
      simp only [hl, Option.getD_some]
      exact hwf.1

theorem WF_assignSide {st : GenState} (hwf : WF st) (s : String) :
    WF (assignSide st s) := by
  cases h : lookupSide s st.series_side_dict with
  | some c => rw [assignSide_of_some h]; exact hwf
  | none =>
      rw [assignSide_of_none h]
      obtain ⟨hn, hd, hp⟩ := hwf
      refine ⟨?_, ?_, hp⟩
      · rcases hn with hn | hn <;> simp [hn]
      · intro p hp'
        rcases List.mem_append.mp hp' with hp' | hp'
        · exact hd p hp'
        · simp only [List.mem_singleton] at hp'
          subst hp'
          exact hn

theorem WF_processRecord {st : GenState} (hwf : WF st) (s : String) :
    WF (processRecord st s).1 := by
  have hwa := WF_assignSide hwf s
  rcases sideCoef_cases hwf s with h | h
  · obtain ⟨-, h2, h3⟩ := processRecord_pos h
    refine ⟨?_, ?_, ?_, ?_, ?_, ?_⟩
    · rw [processRecord_next_coef]; exact hwa.1
    · rw [processRecord_series_side_dict]; exact hwa.2.1
    · rw [h2]; have := hwf.2.2.1; have := hwf.2.2.2.1
      unfold threshold_level; split <;> omega
    · rw [h2]; have := hwf.2.2.1; have := hwf.2.2.2.1
      unfold threshold_level; split <;> omega
    · rw [h3]; exact hwf.2.2.2.2.1
    · rw [h3]; exact hwf.2.2.2.2.2
  · obtain ⟨-, h2, h3⟩ := processRecord_neg h
    refine ⟨?_, ?_, ?_, ?_, ?_, ?_⟩
    · rw [processRecord_next_coef]; exact hwa.1
    · rw [processRecord_series_side_dict]; exact hwa.2.1
    · rw [h3]; exact hwf.2.2.1
    · rw [h3]; exact hwf.2.2.2.1
    · rw [h2]; have := hwf.2.2.2.2.1; have := hwf.2.2.2.2.2
      unfold threshold_level; split <;> omega
    · rw [h2]; have := hwf.2.2.2.2.1; have := hwf.2.2.2.2.2
      unfold threshold_level; split <;> omega

theorem runAux_cons (st : GenState) (s : String) (rest : List String) :
    runAux st (s :: rest) =
      ((runAux (processRecord st s).1 rest).1,
       (processRecord st s).2 ++ (runAux (processRecord st s).1 rest).2) := rfl

theorem runAux_append (st : GenState) (l₁ l₂ : List String) :
    runAux st (l₁ ++ l₂) =
      ((runAux (runAux st l₁).1 l₂).1,
       (runAux st l₁).2 ++ (runAux (runAux st l₁).1 l₂).2) := by
  induction l₁ generalizing st with
  | nil => rfl
  | cons s rest ih =>
      rw [List.cons_append, runAux_cons, ih, runAux_cons]
      simp [List.append_assoc]

theorem WF_runAux {st : GenState} (hwf : WF st) (l : List String) :
    WF (runAux st l).1 := by
  induction l generalizing st with
  | nil => exact hwf
  | cons s rest ih => exact ih (WF_processRecord hwf s)

theorem WF_runState (l : List String) : WF (runState l) :=
  WF_runAux WF_initState l

theorem runAux_out_singleton {st : GenState} (hwf : WF st) (s : String) :
    (processRecord st s).2 =
      [if 0 < sideCoef st s then st.positive_level else st.negative_level] := by
  rcases sideCoef_cases hwf s with h | h
  · rw [(processRecord_pos h).1, if_pos (by rw [h]; norm_num)]
  · rw [(processRecord_neg h).1, if_neg (by rw [h]; norm_num)]

theorem runAux_length {st : GenState} (hwf : WF st) (l : List String) :
    (runAux st l).2.length = l.length := by
  induction l generalizing st with
  | nil => rfl
  | cons s rest ih =>
      have h1 : (processRecord st s).2.length = 1 := by
        rw [runAux_out_singleton hwf s]
        rfl
      rw [runAux_cons]
      simp only [List.length_append, List.length_cons, h1,
        ih (WF_processRecord hwf s)]
      omega

theorem runAux_lookup_some {st : GenState} {x : String} {c : Int}
    (h : lookupSide x st.series_side_dict = some c) (l : List String) :
    lookupSide x (runAux st l).1.series_side_dict = some c := by
  induction l generalizing st with
  | nil => exact h
  | cons s rest ih =>
      refine ih ?_
      rw [processRecord_series_side_dict]
      cases h' : lookupSide s st.series_side_dict with
      | some c' => rw [assignSide_of_some h']; exact h
      | none => rw [assignSide_of_none h']; exact lookupSide_append_some h

theorem runState_take_succ {l : List String} {i : Nat} {s : String}
    (h : l[i]? = some s) :
    runState (l.take (i + 1)) = (processRecord (runState (l.take i)) s).1 := by
  obtain ⟨hi, hv⟩ := List.getElem?_eq_some.mp h
  have htake : l.take (i + 1) = l.take i ++ [s] := by
    rw [List.take_succ, List.getElem?_eq_getElem hi, hv]
    rfl
  unfold runState
  rw [htake, runAux_append]
  rfl

theorem generate_getElem {l : List String} {i : Nat} {s : String}
    (h : l[i]? = some s) :
    (generate_timeline_levels l)[i]? =
      some (if 0 < sideCoef (runState (l.take i)) s
        then (runState (l.take i)).positive_level
        else (runState (l.take i)).negative_level) := by
  obtain ⟨hi, hv⟩ := List.getElem?_eq_some.mp h
  have hsplit : l = l.take i ++ l.drop i := (List.take_append_drop i l).symm
  have hdrop : l.drop i = s :: l.drop (i + 1) := by
    rw [List.drop_eq_getElem_cons hi, hv]
  have hwf : WF (runState (l.take i)) := WF_runState (l.take i)
  have hlen : (runAux initState (l.take i)).2.length = i := by
    rw [runAux_length WF_initState, List.length_take]
    omega
  conv_lhs => rw [generate_timeline_levels, hsplit]
  rw [runAux_append, hdrop]
  show ((runAux initState (l.take i)).2 ++
      (runAux (runState (l.take i)) (s :: l.drop (i + 1))).2)[i]? = _
  rw [List.getElem?_append, if_neg (by omega), hlen, Nat.sub_self]
  rw [runAux_cons]
  show ((processRecord (runState (l.take i)) s).2 ++ _)[0]? = _
  rw [runAux_out_singleton hwf s]
  simp

theorem coefOf_eq_sideCoef {l : List String} {i : Nat} {s : String}
    (h : l[i]? = some s) :
    coefOf l s = sideCoef (runState (l.take i)) s := by
  have h1 : lookupSide s (runState (l.take (i + 1))).series_side_dict =
      some (sideCoef (runState (l.take i)) s) := by
    rw [runState_take_succ h, processRecord_series_side_dict]
    exact sideCoef_lookup _ s
  have h2 : lookupSide s (runState l).series_side_dict =
      some (sideCoef (runState (l.take i)) s) := by
    conv_lhs => rw [show l = l.take (i + 1) ++ l.drop (i + 1) from
      (List.take_append_drop _ l).symm]
    unfold runState
    rw [runAux_append]
    exact runAux_lookup_some h1 _
  unfold coefOf
  rw [h2]
  rfl

theorem runState_pos_const (l : List String) (a : Nat) :
    ∀ b, a ≤ b → b ≤ l.length →
      (∀ t s', a ≤ t → t < b → l[t]? = some s' →
        sideCoef (runState (l.take t)) s' = -1) →
      (runState (l.take b)).positive_level = (runState (l.take a)).positive_level := by
  intro b
  induction b with
  | zero =>
      intro hab _ _
      rw [Nat.le_zero.mp hab]
  | succ n ih =>
      intro hab hbl hall
      rcases Nat.lt_or_ge a (n + 1) with hlt | hge
      · have han : a ≤ n := by omega
        have hn : n < l.length := by omega
        have hs : l[n]? = some l[n] := List.getElem?_eq_getElem hn
        have hcoef := hall n l[n] han (by omega) hs
        rw [runState_take_succ hs, (processRecord_neg hcoef).2.2]
        exact ih han (by omega) (fun t s' h1 h2 h3 => hall t s' h1 (by omega) h3)
      · rw [show a = n + 1 by omega]

theorem runState_neg_const (l : List String) (a : Nat) :
    ∀ b, a ≤ b → b ≤ l.length →
      (∀ t s', a ≤ t → t < b → l[t]? = some s' →
        sideCoef (runState (l.take t)) s' = 1) →
      (runState (l.take b)).negative_level = (runState (l.take a)).negative_level := by
  intro b
  induction b with
  | zero =>
      intro hab _ _
      rw [Nat.le_zero.mp hab]
  | succ n ih =>
      intro hab hbl hall
      rcases Nat.lt_or_ge a (n + 1) with hlt | hge
      · have han : a ≤ n := by omega
        have hn : n < l.length := by omega
        have hs : l[n]? = some l[n] := List.getElem?_eq_getElem hn
        have hcoef := hall n l[n] han (by omega) hs
        rw [runState_take_succ hs, (processRecord_pos hcoef).2.2]
        exact ih han (by omega) (fun t s' h1 h2 h3 => hall t s' h1 (by omega) h3)
      · rw [show a = n + 1 by omega]

/-- C6: the output of `generate_timeline_levels` always has the same length
as its input (every record emits exactly one level, since every assigned
coefficient is +1 or -1). -/
theorem generate_timeline_levels_length :
    ∀ l : List String, (generate_timeline_levels l).length = l.length :=
  fun l => runAux_length WF_initState l

/-- Witness for `generate_timeline_levels_length` at a length-3 input. -/
theorem generate_timeline_levels_length_witness :
    (generate_timeline_levels ["Silver", "Gold", "Gold"]).length =
      (["Silver", "Gold", "Gold"] : List String).length :=
  generate_timeline_levels_length ["Silver", "Gold", "Gold"]

theorem mem_runAux_range {st : GenState} (hwf : WF st) (l : List String) :
    ∀ x ∈ (runAux st l).2, (2 ≤ x ∧ x ≤ 16) ∨ (-16 ≤ x ∧ x ≤ -2) := by
  induction l generalizing st with
  | nil =>
      intro x hx
      simp [runAux] at hx
  | cons s rest ih =>
      intro x hx
      rw [runAux_cons] at hx
      rcases List.mem_append.mp hx with hx | hx
      · rw [runAux_out_singleton hwf s] at hx
        simp only [List.mem_singleton] at hx
        subst hx
        by_cases h0 : 0 < sideCoef st s
        · rw [if_pos h0]
          exact Or.inl ⟨hwf.2.2.1, hwf.2.2.2.1⟩
        · rw [if_neg h0]
          exact Or.inr ⟨hwf.2.2.2.2.1, hwf.2.2.2.2.2⟩
      · exact ih (WF_processRecord hwf s) x hx

/-- C9: every level emitted by `generate_timeline_levels` lies in
`[2, 16]` or in `[-16, -2]`; in particular no level is 0, 1 or -1. -/
theorem generate_timeline_levels_range :
    ∀ (l : List String) (x : Int), x ∈ generate_timeline_levels l →
      (2 ≤ x ∧ x ≤ 16) ∨ (-16 ≤ x ∧ x ≤ -2) :=
  fun l x hx => mem_runAux_range WF_initState l x hx

/-- Witness for `generate_timeline_levels_range`: the first level of
`["Silver"]` is 2, which lies in `[2, 16]`. -/
theorem generate_timeline_levels_range_witness :
    2 ∈ generate_timeline_levels ["Silver"] ∧
    ((2 ≤ (2 : Int) ∧ (2 : Int) ≤ 16) ∨ (-16 ≤ (2 : Int) ∧ (2 : Int) ≤ -2)) :=
  ⟨by decide, generate_timeline_levels_range ["Silver"] 2 (by decide)⟩

/-- C4: the per-record behaviour of `generate_timeline_levels`:
`positive_level` starts at 2 and `negative_level` at -2; a record whose
series has coefficient +1 emits the current `positive_level`, which is
then incremented by 1, or reset to 2 when it equals 16
(`threshold_level`), while `negative_level` is untouched; a record whose
series has coefficient -1 emits the current `negative_level`, which is
then decremented by 1, or reset to -3 when it equals -16, while
`positive_level` is untouched. -/
theorem generate_levels_emit_update :
    (runState []).positive_level = 2 ∧
    (runState []).negative_level = -2 ∧
    ∀ (l : List String) (i : Nat) (s : String), l[i]? = some s →
      (coefOf l s = 1 →
        (generate_timeline_levels l)[i]? = some (runState (l.take i)).positive_level ∧
        (runState (l.take (i + 1))).positive_level =
          (if (runState (l.take i)).positive_level = threshold_level then 2
           else (runState (l.take i)).positive_level + 1) ∧
        (runState (l.take (i + 1))).negative_level =
          (runState (l.take i)).negative_level) ∧
      (coefOf l s = -1 →
        (generate_timeline_levels l)[i]? = some (runState (l.take i)).negative_level ∧
        (runState (l.take (i + 1))).negative_level =
          (if (runState (l.take i)).negative_level = -threshold_level then -3
           else (runState (l.take i)).negative_level - 1) ∧
        (runState (l.take (i + 1))).positive_level =
          (runState (l.take i)).positive_level) := by
  refine ⟨rfl, rfl, ?_⟩
  intro l i s h
  have hb := coefOf_eq_sideCoef h
  constructor
  · intro hc
    have hsc : sideCoef (runState (l.take i)) s = 1 := by rw [← hb]; exact hc
    obtain ⟨o1, o2, o3⟩ := processRecord_pos hsc
    refine ⟨?_, ?_, ?_⟩
    · rw [generate_getElem h, if_pos (by rw [hsc]; norm_num)]
    · rw [runState_take_succ h, o2]
    · rw [runState_take_succ h, o3]
  · intro hc
    have hsc : sideCoef (runState (l.take i)) s = -1 := by rw [← hb]; exact hc
    obtain ⟨o1, o2, o3⟩ := processRecord_neg hsc
    refine ⟨?_, ?_, ?_⟩
    · rw [generate_getElem h, if_neg (by rw [hsc]; norm_num)]
    · rw [runState_take_succ h, o2]
    · rw [runState_take_succ h, o3]

/-- Witness for `generate_levels_emit_update`: record 2 of
`["Silver", "Gold", "Silver"]` (series "Silver", coefficient +1). -/
theorem generate_levels_emit_update_witness :
    (generate_timeline_levels ["Silver", "Gold", "Silver"])[2]? =
      some (runState ((["Silver", "Gold", "Silver"] : List String).take 2)).positive_level ∧
    (runState ((["Silver", "Gold", "Silver"] : List String).take (2 + 1))).positive_level =
      (if (runState ((["Silver", "Gold", "Silver"] : List String).take 2)).positive_level =
          threshold_level then 2
       else (runState ((["Silver", "Gold", "Silver"] : List String).take 2)).positive_level + 1) ∧
    (runState ((["Silver", "Gold", "Silver"] : List String).take (2 + 1))).negative_level =
      (runState ((["Silver", "Gold", "Silver"] : List String).take 2)).negative_level :=
  (generate_levels_emit_update.2.2 ["Silver", "Gold", "Silver"] 2 "Silver" (by decide)).1
    (by decide)

/-- C2 (amended): for two occurrences (at positions `i < j`) of the same
series `s` that are consecutive for `s` and have no intervening record of
any series assigned to the same side (the same coefficient), the level at
`j` is the level at `i` plus the series' coefficient (+1 or -1), except
when the level at `i` sits at the ceiling 16 (positive side) or the floor
-16 (negative side), in which case the level at `j` is the reset value 2,
respectively -3. -/
theorem consecutive_same_side_step :
    ∀ (l : List String) (i j : Nat) (s : String) (a b : Int),
      l[i]? = some s → l[j]? = some s → i < j →
      (∀ t, i < t → t < j → l[t]? ≠ some s) →
      (∀ t s', i < t → t < j → l[t]? = some s' → coefOf l s' ≠ coefOf l s) →
      (generate_timeline_levels l)[i]? = some a →
      (generate_timeline_levels l)[j]? = some b →
      ((coefOf l s = 1 ∧ (if a = 16 then b = 2 else b = a + 1)) ∨
       (coefOf l s = -1 ∧ (if a = -16 then b = -3 else b = a - 1))) := by
  intro l i j s a b hi hj hij _hcons hside ha hb
  have hjlen : j < l.length := (List.getElem?_eq_some.mp hj).1
  have hbi := coefOf_eq_sideCoef hi
  have hbj := coefOf_eq_sideCoef hj
  have hwf_i : WF (runState (l.take i)) := WF_runState _
  rcases sideCoef_cases hwf_i s with hc | hc
  · have hcoef : coefOf l s = 1 := by rw [hbi]; exact hc
    have hmid : ∀ t s', i + 1 ≤ t → t < j → l[t]? = some s' →
        sideCoef (runState (l.take t)) s' = -1 := by
      intro t s' h1 h2 h3
      rcases sideCoef_cases (WF_runState (l.take t)) s' with h4 | h4
      · exact absurd (by rw [coefOf_eq_sideCoef h3, h4, hcoef])
          (hside t s' (by omega) h2 h3)
      · exact h4
    have ha' : a = (runState (l.take i)).positive_level := by
      rw [generate_getElem hi, if_pos (by rw [hc]; norm_num)] at ha
      exact (Option.some.inj ha).symm
    have hb' : b = (runState (l.take j)).positive_level := by
      have hcj : sideCoef (runState (l.take j)) s = 1 := by rw [← hbj, hcoef]
      rw [generate_getElem hj, if_pos (by rw [hcj]; norm_num)] at hb
      exact (Option.some.inj hb).symm
    have hseg : (runState (l.take j)).positive_level =
        (runState (l.take (i + 1))).positive_level :=
      runState_pos_const l (i + 1) j (by omega) (by omega) hmid
    have hstep : (runState (l.take (i + 1))).positive_level =
        (if (runState (l.take i)).positive_level = threshold_level then 2
         else (runState (l.take i)).positive_level + 1) := by
      rw [runState_take_succ hi, (processRecord_pos hc).2.1]
    refine Or.inl ⟨hcoef, ?_⟩
    rw [ha', hb', hseg, hstep]
    unfold threshold_level
    split_ifs <;> rfl
  · have hcoef : coefOf l s = -1 := by rw [hbi]; exact hc
    have hmid : ∀ t s', i + 1 ≤ t → t < j → l[t]? = some s' →
        sideCoef (runState (l.take t)) s' = 1 := by
      intro t s' h1 h2 h3
      rcases sideCoef_cases (WF_runState (l.take t)) s' with h4 | h4
      · exact h4
      · exact absurd (by rw [coefOf_eq_sideCoef h3, h4, hcoef])
          (hside t s' (by omega) h2 h3)
    have ha' : a = (runState (l.take i)).negative_level := by
      rw [generate_getElem hi, if_neg (by rw [hc]; norm_num)] at ha
      exact (Option.some.inj ha).symm
    have hb' : b = (runState (l.take j)).negative_level := by
      have hcj : sideCoef (runState (l.take j)) s = -1 := by rw [← hbj, hcoef]
      rw [generate_getElem hj, if_neg (by rw [hcj]; norm_num)] at hb
      exact (Option.some.inj hb).symm
    have hseg : (runState (l.take j)).negative_level =
        (runState (l.take (i + 1))).negative_level :=
      runState_neg_const l (i + 1) j (by omega) (by omega) hmid
    have hstep : (runState (l.take (i + 1))).negative_level =
        (if (runState (l.take i)).negative_level = -threshold_level then -3
         else (runState (l.take i)).negative_level - 1) := by
      rw [runState_take_succ hi, (processRecord_neg hc).2.1]
    refine Or.inr ⟨hcoef, ?_⟩
    rw [ha', hb', hseg, hstep]
    unfold threshold_level
    split_ifs with h16
    · rfl
    · rfl

/-- Witness for `consecutive_same_side_step`: the two "Silver" records of
`["Silver", "Gold", "Silver"]` at positions 0 and 2, with levels 2 and 3. -/
theorem consecutive_same_side_step_witness :
    (coefOf ["Silver", "Gold", "Silver"] "Silver" = 1 ∧
      (if (2 : Int) = 16 then (3 : Int) = 2 else (3 : Int) = 2 + 1)) ∨
    (coefOf ["Silver", "Gold", "Silver"] "Silver" = -1 ∧
      (if (2 : Int) = -16 then (3 : Int) = -3 else (3 : Int) = 2 - 1)) :=
  consecutive_same_side_step ["Silver", "Gold", "Silver"] 0 2 "Silver" 2 3
    (by decide) (by decide) (by decide)
    (by
      intro t h1 h2
      interval_cases t
      decide)
    (by
      intro t s' h1 h2 ht
      interval_cases t
      have h' : (some "Gold" : Option String) = some s' := ht
      injection h' with h''
      subst h''
      decide)
    (by decide) (by decide)

/-- C2 (counterexample): the claim as stated — requiring only that no
*first occurrence* of a different series intervenes — is false.  In
`["A", "B", "C", "A", "C", "A"]` the "A" records at positions 3 and 5 are
consecutive occurrences of "A", the intervening record (position 4,
series "C") is not a first occurrence, "A" has coefficient +1 and its
level 4 at position 3 is not at the ceiling, yet the level at position 5
is 6 = 4 + 2, not 4 + 1: the intervening "C" record also advanced
`positive_level`. -/
theorem consecutive_same_series_claim_false :
    ¬ (∀ (i j : Nat) (s : String) (a b : Int),
        (["A", "B", "C", "A", "C", "A"] : List String)[i]? = some s →
        (["A", "B", "C", "A", "C", "A"] : List String)[j]? = some s →
        i < j →
        (∀ t, i < t → t < j →
          (["A", "B", "C", "A", "C", "A"] : List String)[t]? ≠ some s) →
        (∀ t s', i < t → t < j →
          (["A", "B", "C", "A", "C", "A"] : List String)[t]? = some s' →
          ∃ u, u < t ∧ (["A", "B", "C", "A", "C", "A"] : List String)[u]? = some s') →
        (generate_timeline_levels ["A", "B", "C", "A", "C", "A"])[i]? = some a →
        (generate_timeline_levels ["A", "B", "C", "A", "C", "A"])[j]? = some b →
        ((coefOf ["A", "B", "C", "A", "C", "A"] s = 1 ∧
            (if a = 16 then b = 2 else b = a + 1)) ∨
         (coefOf ["A", "B", "C", "A", "C", "A"] s = -1 ∧
            (if a = -16 then b = -3 else b = a - 1)))) := by
  intro h
  have hc := h 3 5 "A" 4 6 (by decide) (by decide) (by decide)
    (by
      intro t h1 h2
      interval_cases t
      decide)
    (by
      intro t s' h1 h2 ht
      interval_cases t
      refine ⟨2, by omega, ?_⟩
      have h' : (some "C" : Option String) = some s' := ht
      injection h' with h'')
    (by decide) (by decide)
  revert hc
  decide

/-- The association list assigning alternating coefficients, starting with
`k`, to a list of names: the i-th name receives `k * (-1)^i`. -/
def altFrom (k : Int) : List String → List (String × Int)
  | [] => []
  | s :: rest => (s, k) :: altFrom (k * -1) rest

theorem lookupSide_isSome_of_mem {s : String} {d : List (String × Int)}
    (h : s ∈ d.map Prod.fst) : (lookupSide s d).isSome := by
  induction d with
  | nil => simp at h
  | cons p rest ih =>
      obtain ⟨k, v⟩ := p
      by_cases hk : k = s
      · simp [lookupSide, hk]
      · simp only [List.map_cons] at h
        rcases List.mem_cons.mp h with h' | h'
        · exact absurd h'.symm hk
        · simp only [lookupSide, if_neg hk]
          exact ih h'

theorem mem_keys_of_lookupSide {s : String} {d : List (String × Int)} {c : Int}
    (h : lookupSide s d = some c) : s ∈ d.map Prod.fst :=
  List.mem_map.mpr ⟨(s, c), lookupSide_mem h, rfl⟩

theorem not_mem_keys_of_lookupSide {s : String} {d : List (String × Int)}
    (h : lookupSide s d = none) : s ∉ d.map Prod.fst := by
  intro hmem
  have h' := lookupSide_isSome_of_mem hmem
  rw [h] at h'
  simp at h'

theorem runAux_dict (l : List String) :
    ∀ st : GenState,
      (runAux st l).1.series_side_dict =
        st.series_side_dict ++
          altFrom st.next_coef (firstOccsAux (st.series_side_dict.map Prod.fst) l) := by
  induction l with
  | nil =>
      intro st
      simp [runAux, firstOccsAux, altFrom]
  | cons s rest ih =>
      intro st
      rw [runAux_cons]
      cases h : lookupSide s st.series_side_dict with
      | some c =>
          have hmem : s ∈ st.series_side_dict.map Prod.fst := mem_keys_of_lookupSide h
          have hd : (processRecord st s).1.series_side_dict = st.series_side_dict := by
            rw [processRecord_series_side_dict, assignSide_of_some h]
          have hn : (processRecord st s).1.next_coef = st.next_coef := by
            rw [processRecord_next_coef, assignSide_of_some h]
          have hrec := ih (processRecord st s).1
          rw [hd, hn] at hrec
          rw [hrec]
          simp only [firstOccsAux, if_pos hmem]
      | none =>
          have hnot : s ∉ st.series_side_dict.map Prod.fst := not_mem_keys_of_lookupSide h
          have hd : (processRecord st s).1.series_side_dict =
              st.series_side_dict ++ [(s, st.next_coef)] := by
            rw [processRecord_series_side_dict, assignSide_of_none h]
          have hn : (processRecord st s).1.next_coef = st.next_coef * -1 := by
            rw [processRecord_next_coef, assignSide_of_none h]
          have hrec := ih (processRecord st s).1
          rw [hd, hn] at hrec
          rw [hrec]
          simp only [List.map_append, List.map_cons, List.map_nil]
          simp only [firstOccsAux, if_neg hnot, altFrom]
          simp [List.append_assoc]

theorem runState_dict (l : List String) :
    (runState l).series_side_dict = altFrom 1 (firstOccs l) := by
  have h := runAux_dict l initState
  simpa [initState, firstOccs, runState] using h

theorem firstOccsAux_not_mem {l : List String} :
    ∀ {seen : List String} {x : String}, x ∈ firstOccsAux seen l → x ∉ seen := by
  induction l with
  | nil =>
      intro seen x hx
      simp [firstOccsAux] at hx
  | cons s rest ih =>
      intro seen x hx
      by_cases hs : s ∈ seen
      · simp only [firstOccsAux, if_pos hs] at hx
        exact ih hx
      · simp only [firstOccsAux, if_neg hs] at hx
        rcases List.mem_cons.mp hx with rfl | hx
        · exact hs
        · intro hxx
          exact ih hx (List.mem_append.mpr (Or.inl hxx))

theorem firstOccsAux_nodup (l : List String) :
    ∀ seen : List String, (firstOccsAux seen l).Nodup := by
  induction l with
  | nil =>
      intro seen
      simp [firstOccsAux]
  | cons s rest ih =>
      intro seen
      by_cases hs : s ∈ seen
      · simp only [firstOccsAux, if_pos hs]
        exact ih seen
      · simp only [firstOccsAux, if_neg hs]
        refine List.nodup_cons.mpr ⟨?_, ih _⟩
        intro hmem
        exact firstOccsAux_not_mem hmem
          (List.mem_append.mpr (Or.inr (List.mem_singleton.mpr rfl)))

theorem firstOccs_nodup (l : List String) : (firstOccs l).Nodup :=
  firstOccsAux_nodup l []

theorem lookupSide_altFrom :
    ∀ (names : List String) (k : Int) (i : Nat) (name : String),
      names.Nodup → names[i]? = some name →
      lookupSide name (altFrom k names) = some (if i % 2 = 0 then k else -k) := by
  intro names
  induction names with
  | nil =>
      intro k i name _ h
      simp at h
  | cons a rest ih =>
      intro k i name hnd h
      cases i with
      | zero =>
          have ha : a = name := by simpa using h
          subst ha
          simp [altFrom, lookupSide]
      | succ n =>
          have h' : rest[n]? = some name := by simpa using h
          have hne : a ≠ name := by
            intro he
            subst he
            obtain ⟨hlt, hv⟩ := List.getElem?_eq_some.mp h'
            have hm := List.getElem_mem hlt
            rw [hv] at hm
            exact (List.nodup_cons.mp hnd).1 hm
          simp only [altFrom, lookupSide, if_neg hne]
          rw [ih (k * -1) n name (List.nodup_cons.mp hnd).2 h']
          congr 1
          rcases Nat.mod_two_eq_zero_or_one n with h2 | h2
          · rw [if_pos h2, if_neg (by omega)]
            ring
          · rw [if_neg (by omega), if_pos (by omega)]
            ring

/-- C5: in `generate_timeline_levels`, the i-th distinct series name (in
order of first occurrence, counting from 0) is assigned coefficient +1
when i is even and -1 when i is odd — the coefficient alternates exactly
on each first sight of a new series name, no matter how many records are
processed in between. -/
theorem distinct_series_alternating_coef :
    ∀ (l : List String) (i : Nat) (name : String),
      (firstOccs l)[i]? = some name →
      coefOf l name = (if i % 2 = 0 then 1 else -1) := by
  intro l i name h
  unfold coefOf
  rw [runState_dict, lookupSide_altFrom (firstOccs l) 1 i name (firstOccs_nodup l) h]
  rfl

/-- Witness for `distinct_series_alternating_coef`: "Wide Screen" is the
third distinct series (index 2) of
`["Silver", "Gold", "Silver", "Wide Screen"]` and gets coefficient +1. -/
theorem distinct_series_alternating_coef_witness :
    (firstOccs ["Silver", "Gold", "Silver", "Wide Screen"])[2]? = some "Wide Screen" ∧
    coefOf ["Silver", "Gold", "Silver", "Wide Screen"] "Wide Screen" =
      (if 2 % 2 = 0 then 1 else -1) :=
  ⟨by decide,
    distinct_series_alternating_coef ["Silver", "Gold", "Silver", "Wide Screen"] 2
      "Wide Screen" (by decide)⟩
